import Mathlib

/-!
# Habit Streak & Statistics Engine — verification of the spec's claims

Shallow embedding of the statistics core of the Habit-Tracker backend:

* `StreakService` in `src/Backend/src/models/user.model.js`
  (`calculateStreaks`, `calculateConsistencyScore`, `calculateExpectedDays`,
  `predictNextMilestone`, `getUserStats`), and
* the streak/statistics portion of `HabitLogModel.getHabitStats` in
  `src/Backend/src/models/HabitLog.ts`.

Dates (`log_date`) are embedded as integer epoch days.  All JavaScript
arithmetic on them is exact on whole days, so `Math.floor((a-b)/86400000)`
is plain integer subtraction.  `new Date(d).getDay()` is day-of-week with
`0 = Sunday`; epoch day `0` (1970-01-01) was a Thursday, so
`getDay d = (d + 4) % 7`.  `Array.prototype.sort` with the numeric date
comparators is a stable sort (ES2019), embedded as `List.insertionSort`
over the comparator's preorder.  The one place where a JavaScript number
can be non-finite (the unguarded division in the weekly schedule-adherence
score) is embedded with an explicit `JsNum` type carrying `NaN` and the
infinities; everywhere else values stay finite and are embedded in `ℚ`.
-/

/-- One habit log row: calendar date (epoch day) and completion flag. -/
structure LogEntry where
  log_date : Int
  completed : Bool
deriving DecidableEq, Repr

/-- Comparator `(a, b) => new Date(b.log_date) - new Date(a.log_date)` (newest first). -/
def dateGe (a b : LogEntry) : Prop := b.log_date ≤ a.log_date

/-- Comparator `(a, b) => new Date(a.log_date) - new Date(b.log_date)` (oldest first). -/
def dateLe (a b : LogEntry) : Prop := a.log_date ≤ b.log_date

instance : DecidableRel dateGe := fun a b => inferInstanceAs (Decidable (b.log_date ≤ a.log_date))

instance : DecidableRel dateLe := fun a b => inferInstanceAs (Decidable (a.log_date ≤ b.log_date))

instance : IsTotal LogEntry dateGe := ⟨fun a b => le_total b.log_date a.log_date⟩

instance : IsTrans LogEntry dateGe := ⟨fun _ _ _ h1 h2 => le_trans h2 h1⟩

instance : IsTotal LogEntry dateLe := ⟨fun a b => le_total a.log_date b.log_date⟩

instance : IsTrans LogEntry dateLe := ⟨fun _ _ _ h1 h2 => le_trans h1 h2⟩

/-- `[...logs].sort((a, b) => new Date(b.log_date).getTime() - new Date(a.log_date).getTime())`. -/
def sortDesc (logs : List LogEntry) : List LogEntry := List.insertionSort dateGe logs

/-- `[...logs].sort((a, b) => new Date(a.log_date).getTime() - new Date(b.log_date).getTime())`. -/
def sortAsc (logs : List LogEntry) : List LogEntry := List.insertionSort dateLe logs

/-- `Math.round(x * 100) / 100` — round to two decimals. -/
def round2 (q : ℚ) : ℚ := ((round (q * 100) : ℤ) : ℚ) / 100

/-- Result record of `StreakService.calculateStreaks`. -/
structure StreakResult where
  currentStreak : Nat
  longestStreak : Nat
  lastCompletedDate : Option Int
deriving DecidableEq, Repr

/-- The single newest-first loop of `StreakService.calculateStreaks`
(user.model.js lines 1374-1406), with its mutable state
`(currentStreak, tempStreak, longestStreak, lastCompletedDate, prevDate)`
passed explicitly.  `Math.floor((prevDate - logDate) / 86400000)` is exact
integer day difference. -/
def streakLoop : List LogEntry → Nat → Nat → Nat → Option Int → Option Int → StreakResult
  | [], currentStreak, _, longestStreak, lastCompletedDate, _ =>
    ⟨currentStreak, longestStreak, lastCompletedDate⟩
  | log :: rest, currentStreak, tempStreak, longestStreak, lastCompletedDate, prevDate =>
    if log.completed then
      if currentStreak = 0 then
        streakLoop rest 1 (tempStreak + 1) (max longestStreak (tempStreak + 1))
          (some log.log_date) (some log.log_date)
      else
        match prevDate with
        | some pd =>
          if pd - log.log_date = 1 then
            streakLoop rest (currentStreak + 1) (tempStreak + 1)
              (max longestStreak (tempStreak + 1)) lastCompletedDate (some log.log_date)
          else
            ⟨currentStreak, longestStreak, lastCompletedDate⟩
        | none =>
          streakLoop rest currentStreak (tempStreak + 1) (max longestStreak (tempStreak + 1))
            lastCompletedDate (some log.log_date)
    else
      streakLoop rest currentStreak 0 longestStreak lastCompletedDate (some log.log_date)

/-- `StreakService.calculateStreaks` (user.model.js lines 1354-1409). -/
def calculateStreaks (logs : List LogEntry) : StreakResult :=
  if logs.length = 0 then ⟨0, 0, none⟩
  else streakLoop (sortDesc logs) 0 0 0 none none

/-- Current-streak loop of `HabitLogModel.getHabitStats` (HabitLog.ts lines
182-205).  The source reads the previous date as
`sortedLogs[sortedLogs.indexOf(log) - 1]?.log_date`; row objects are
reference-unique, so `indexOf` resolves to the iterated element's own
position and the previous date is the preceding element's date, passed
here as `prevDate` (`none` at index 0, where `sortedLogs[-1]` is
`undefined` and the `NaN` day difference fails the `=== 1` test). -/
def hlCurrentLoop : List LogEntry → Option Int → Nat → Nat
  | [], _, currentStreak => currentStreak
  | log :: rest, prevDate, currentStreak =>
    if log.completed then
      if currentStreak = 0 then hlCurrentLoop rest (some log.log_date) 1
      else
        match prevDate with
        | some pd =>
          if pd - log.log_date = 1 then
            hlCurrentLoop rest (some log.log_date) (currentStreak + 1)
          else currentStreak
        | none => currentStreak
    else currentStreak

/-- Longest-streak / last-completed chronological loop of
`HabitLogModel.getHabitStats` (HabitLog.ts lines 207-222), state
`(tempStreak, longestStreak, lastCompleted)`. -/
def hlChronoLoop : List LogEntry → Nat → Nat → Option Int → Nat × Option Int
  | [], _, longestStreak, lastCompleted => (longestStreak, lastCompleted)
  | log :: rest, tempStreak, longestStreak, lastCompleted =>
    if log.completed then
      hlChronoLoop rest (tempStreak + 1) (max longestStreak (tempStreak + 1)) (some log.log_date)
    else
      hlChronoLoop rest 0 longestStreak lastCompleted

/-- Statistics record returned by `HabitLogModel.getHabitStats`
(without the `habit_id` pass-through field). -/
structure HabitCompletionStats where
  total_days : Nat
  completed_days : Nat
  completion_rate : ℚ
  current_streak : Nat
  longest_streak : Nat
  last_completed : Option Int
deriving DecidableEq, Repr

/-- The pure computation of `HabitLogModel.getHabitStats`
(HabitLog.ts lines 150-233) on an already-fetched log list. -/
def getHabitStatsCore (logs : List LogEntry) : HabitCompletionStats :=
  let totalDays := logs.length
  let completedDays := (logs.filter (·.completed)).length
  let completionRate : ℚ := if totalDays > 0 then ((completedDays : ℚ) / totalDays) * 100 else 0
  let sortedLogs := sortDesc logs
  let currentStreak := hlCurrentLoop sortedLogs none 0
  let chronologicalLogs := sortAsc logs
  let chrono := hlChronoLoop chronologicalLogs 0 0 none
  ⟨totalDays, completedDays, round2 completionRate, currentStreak, chrono.1, chrono.2⟩

/-- JavaScript number for the schedule-adherence computation: the one spot
where the source can produce a non-finite value (division by zero in
`calculateConsistencyScore`). -/
inductive JsNum where
  | nan
  | posInf
  | negInf
  | num (q : ℚ)
deriving DecidableEq, Repr

namespace JsNum

/-- JavaScript `+` on numbers. -/
def add : JsNum → JsNum → JsNum
  | nan, _ => nan
  | _, nan => nan
  | posInf, negInf => nan
  | negInf, posInf => nan
  | posInf, _ => posInf
  | _, posInf => posInf
  | negInf, _ => negInf
  | _, negInf => negInf
  | num a, num b => num (a + b)

/-- JavaScript `*` on numbers. -/
def mul : JsNum → JsNum → JsNum
  | nan, _ => nan
  | _, nan => nan
  | posInf, posInf => posInf
  | posInf, negInf => negInf
  | negInf, posInf => negInf
  | negInf, negInf => posInf
  | posInf, num b => if 0 < b then posInf else if b < 0 then negInf else nan
  | num a, posInf => if 0 < a then posInf else if a < 0 then negInf else nan
  | negInf, num b => if 0 < b then negInf else if b < 0 then posInf else nan
  | num a, negInf => if 0 < a then negInf else if a < 0 then posInf else nan
  | num a, num b => num (a * b)

/-- JavaScript `/` on numbers (only `+0` exists in this embedding). -/
def div : JsNum → JsNum → JsNum
  | nan, _ => nan
  | _, nan => nan
  | posInf, posInf => nan
  | posInf, negInf => nan
  | negInf, posInf => nan
  | negInf, negInf => nan
  | posInf, num b => if 0 ≤ b then posInf else negInf
  | negInf, num b => if 0 ≤ b then negInf else posInf
  | num _, posInf => num 0
  | num _, negInf => num 0
  | num a, num b =>
    if b = 0 then (if 0 < a then posInf else if a < 0 then negInf else nan)
    else num (a / b)

/-- JavaScript `Math.min` (NaN-propagating). -/
def jsmin : JsNum → JsNum → JsNum
  | nan, _ => nan
  | _, nan => nan
  | negInf, _ => negInf
  | _, negInf => negInf
  | posInf, b => b
  | a, posInf => a
  | num a, num b => num (min a b)

/-- JavaScript `Math.round` (half toward plus infinity, as `round` on `ℚ`). -/
def jsround : JsNum → JsNum
  | nan => nan
  | posInf => posInf
  | negInf => negInf
  | num q => num ((round q : ℤ) : ℚ)

end JsNum

/-- `new Date(epochDay).getDay()`: 0 = Sunday .. 6 = Saturday. -/
def getDay (d : Int) : Nat := ((d + 4) % 7).toNat

/-- `StreakService.calculateExpectedDays` (user.model.js lines 1483-1492):
the set of *weekdays* occurring in the logs, filtered by membership of the
normalized weekday (`0 → 7`) in `targetDays`. -/
def calculateExpectedDays (logs : List LogEntry) (targetDays : List Nat) : Nat :=
  let uniqueDays := (logs.map (fun log => getDay log.log_date)).dedup
  (uniqueDays.filter (fun day => (if day = 0 then 7 else day) ∈ targetDays)).length

/-- The `scheduleScore` block of `StreakService.calculateConsistencyScore`
(user.model.js lines 1467-1478).  `targetDays` is the habit's
`target_days` column; `if (frequency === 'weekly' && targetDays)` is the
truthiness test on it (an empty array is truthy). -/
def scheduleScoreOf (logs : List LogEntry) (frequency : String)
    (targetDays : Option (List Nat)) : JsNum :=
  let completedDays : ℚ := ((logs.filter (·.completed)).length : ℚ)
  if frequency = "weekly" ∧ targetDays.isSome then
    let expectedDays := calculateExpectedDays logs (targetDays.getD [])
    JsNum.jsmin
      (JsNum.mul (JsNum.div (JsNum.num completedDays) (JsNum.num (expectedDays : ℚ)))
        (JsNum.num 20))
      (JsNum.num 20)
  else if frequency = "daily" then JsNum.num (if 0 < completedDays then 20 else 0)
  else JsNum.num 0

/-- `StreakService.calculateConsistencyScore` (user.model.js lines 1447-1478). -/
def calculateConsistencyScore (logs : List LogEntry) (frequency : String)
    (targetDays : Option (List Nat)) : JsNum :=
  if logs.length = 0 then JsNum.num 0
  else
    let totalDays : ℚ := (logs.length : ℚ)
    let completedDays : ℚ := ((logs.filter (·.completed)).length : ℚ)
    let completionScore : ℚ := completedDays / totalDays * 50
    let s := calculateStreaks logs
    let streakScore : ℚ :=
      min ((s.currentStreak : ℚ) / max (s.longestStreak : ℚ) 1 * 30) 30
    JsNum.jsround
      (JsNum.add (JsNum.num (completionScore + streakScore)) (scheduleScoreOf logs frequency targetDays))

/-- Milestone projection record of `StreakService.predictNextMilestone`. -/
structure MilestoneProjection where
  nextMilestone : Nat
  daysToReach : Int
  confidence : Int
deriving DecidableEq, Repr

/-- The milestone ladder of `StreakService.predictNextMilestone`. -/
def milestonesLadder : List Nat := [3, 7, 14, 21, 30, 60, 90, 100]

/-- The pure part of `StreakService.predictNextMilestone` (user.model.js
lines 1506-1548) on the stats it fetched (`current_streak`,
`completion_rate`).  `milestones.find(m => m > streak) || streak + 7` is
`getD` of `find?` since every ladder value is truthy. -/
def predictNextMilestone (current_streak : Nat) (completion_rate : ℚ) : MilestoneProjection :=
  let nextMilestone :=
    (milestonesLadder.find? (fun m => decide (current_streak < m))).getD (current_streak + 7)
  let completionRate : ℚ := completion_rate / 100
  let daysToReach : Int :=
    if 0 < completionRate then ⌈((nextMilestone : ℚ) - (current_streak : ℚ)) / completionRate⌉
    else 99
  let confidence : Int := min (round (completionRate * 100)) 95
  ⟨nextMilestone, daysToReach, confidence⟩

/-- A habit row, as far as `StreakService.getUserStats` consumes it. -/
structure HabitRow where
  id : Nat
  name : String
deriving DecidableEq, Repr

/-- One element of `habits_by_completion` in `StreakService.getUserStats`. -/
structure HabitCompletionEntry where
  habit_id : Nat
  name : String
  completion_rate : ℚ
  current_streak : Nat
deriving DecidableEq, Repr

/-- `UserStats` as returned by `StreakService.getUserStats`. -/
structure UserStats where
  overall_completion_rate : ℚ
  total_active_habits : Nat
  total_completed_logs : Nat
  current_streak : Nat
  best_streak : Nat
  average_streak : ℚ
  habits_by_completion : List HabitCompletionEntry
deriving DecidableEq, Repr

/-- Ranking comparator `(a, b) => b.completion_rate - a.completion_rate`. -/
def rateGe (a b : HabitCompletionEntry) : Prop := b.completion_rate ≤ a.completion_rate

instance : DecidableRel rateGe :=
  fun a b => inferInstanceAs (Decidable (b.completion_rate ≤ a.completion_rate))

instance : IsTotal HabitCompletionEntry rateGe := ⟨fun a b => le_total b.completion_rate a.completion_rate⟩

instance : IsTrans HabitCompletionEntry rateGe := ⟨fun _ _ _ h1 h2 => le_trans h2 h1⟩

/-- `Promise.all(habits.map(async habit => ...))`: evaluate the per-habit
stats computation for every habit; any rejection rejects the whole
aggregation (the outer `catch` rethrows). -/
def mapAll (f : HabitRow → Except String HabitCompletionEntry) :
    List HabitRow → Except String (List HabitCompletionEntry)
  | [] => .ok []
  | h :: t =>
    match f h with
    | .error e => .error e
    | .ok r =>
      match mapAll f t with
      | .error e => .error e
      | .ok rs => .ok (r :: rs)

/-- The aggregation block of `StreakService.getUserStats` (user.model.js
lines 1258-1296) over the computed `habitsByCompletion` list, the habit
count, and the `total_completed_logs` SQL count. -/
def aggregateUserStats (habitsByCompletion : List HabitCompletionEntry)
    (totalActiveHabits totalCompletedLogs : Nat) : UserStats :=
  let overallCompletionRate : ℚ :=
    if habitsByCompletion.length > 0 then
      (habitsByCompletion.map (·.completion_rate)).sum / (habitsByCompletion.length : ℚ)
    else 0
  let streaks : List Nat := habitsByCompletion.map (·.current_streak)
  let currentStreak := streaks.foldr max 0
  let bestStreak := streaks.foldr max 0
  let averageStreak : ℚ :=
    if streaks.length > 0 then ((streaks.sum : ℚ)) / (streaks.length : ℚ) else 0
  ⟨round2 overallCompletionRate, totalActiveHabits, totalCompletedLogs,
    currentStreak, bestStreak, round2 averageStreak,
    List.insertionSort rateGe habitsByCompletion⟩

/-- `StreakService.getUserStats` (user.model.js lines 1231-1300), with the
per-habit stats computation (`calculateHabitStats` plus record shaping)
and the completed-logs SQL count abstracted as inputs. -/
def getUserStats (habits : List HabitRow)
    (calcHabit : HabitRow → Except String HabitCompletionEntry)
    (totalCompletedLogs : Nat) : Except String UserStats :=
  if habits.length = 0 then
    .ok ⟨0, 0, 0, 0, 0, 0, []⟩
  else
    match mapAll calcHabit habits with
    | .error e => .error e
    | .ok habitsByCompletion =>
      .ok (aggregateUserStats habitsByCompletion habits.length totalCompletedLogs)

/-! ## Specification-side definitions

These follow the wording of the claims/spec, for comparison with the
definitions above (refinement claims C2, C3, C4). -/

/-- Spec wording of the current-streak backward count: entries whose dates
are exactly one calendar day below the previous one and all completed. -/
def countConsecutive (d : Int) : List LogEntry → Nat
  | [] => 0
  | e :: t => if e.completed ∧ e.log_date = d - 1 then countConsecutive e.log_date t + 1 else 0

/-- Spec wording of the current streak: on the newest-first order, the
initial run of completed entries with dates exactly 1 day apart; 0 when the
most recent entry is missed. -/
def specCurrentStreak (logs : List LogEntry) : Nat :=
  match sortDesc logs with
  | [] => 0
  | h :: t => if h.completed then countConsecutive h.log_date t + 1 else 0

/-- Maximum length of a run of consecutive `completed` entries in a list:
the longest block of completed entries starting at any position. -/
def tailsMaxRun (l : List LogEntry) : Nat :=
  (l.tails.map (fun t => (t.takeWhile (·.completed)).length)).foldr max 0

/-- Spec wording of the longest streak: maximum run of completed entries
over the whole list scanned in chronological (oldest-first) order, with the
counter reset at each missed entry and no date-contiguity requirement. -/
def specLongestStreak (logs : List LogEntry) : Nat :=
  tailsMaxRun (sortAsc logs)

/-- Claim C4's wording of the weekly schedule-adherence score:
`expectedDays` counts distinct calendar *dates* whose normalized weekday is
targeted, and the score is 0 when `expectedDays = 0`. -/
def claimWeeklyScheduleScore (logs : List LogEntry) (targetWeekdays : List Nat) : ℚ :=
  let expectedDays :=
    ((logs.map (·.log_date)).dedup.filter
      (fun d => (if getDay d = 0 then 7 else getDay d) ∈ targetWeekdays)).length
  let completedDays := (logs.filter (·.completed)).length
  if expectedDays = 0 then 0 else min 20 ((completedDays : ℚ) / (expectedDays : ℚ) * 20)

/-! ## Helper lemmas: the current-streak scan of getHabitStats -/

/-- Once the current streak is positive, the getHabitStats scan counts
exactly the consecutive completed run that `countConsecutive` describes. -/
theorem hlCurrentLoop_eq_countConsecutive :
    ∀ (l : List LogEntry) (d : Int) (c : Nat),
      hlCurrentLoop l (some d) (c + 1) = (c + 1) + countConsecutive d l := by
  intro l
  induction l with
  | nil => intro d c; simp [hlCurrentLoop, countConsecutive]
  | cons e t ih =>
    intro d c
    by_cases hc : e.completed
    · by_cases hd : e.log_date = d - 1
      · have hdiff : d - (d - 1) = 1 := by omega
        simp only [hlCurrentLoop, countConsecutive, hc, hd, hdiff, if_true, true_and,
          Nat.succ_ne_zero, if_false]
        rw [show c + 1 + 1 = (c + 1) + 1 from rfl, ih]
        omega
      · have hdiff : ¬ (d - e.log_date = 1) := by omega
        simp [hlCurrentLoop, countConsecutive, hc, hd, hdiff]
    · simp [hlCurrentLoop, countConsecutive, hc]

/-- The current streak computed by `getHabitStatsCore` coincides with the
spec-level description `specCurrentStreak` on every log list. -/
theorem hlCurrent_eq_specCurrentStreak (logs : List LogEntry) :
    (getHabitStatsCore logs).current_streak = specCurrentStreak logs := by
  unfold getHabitStatsCore specCurrentStreak
  cases h : sortDesc logs with
  | nil => simp [hlCurrentLoop]
  | cons hd t =>
    by_cases hc : hd.completed
    · simp only [hc, if_true, hlCurrentLoop, if_pos rfl]
      rw [show (1 : Nat) = 0 + 1 by rfl, hlCurrentLoop_eq_countConsecutive]
      omega
    · simp [hlCurrentLoop, hc]

/-- C1: the claim says the consistency score is always an integer in
`[0,100]` for every valid schedule (Daily, or Weekly with non-empty
`targetWeekdays`), and that the weekly schedule-adherence division never
produces an out-of-range or undefined result.  The code violates this (and
its own `(0-100)` doc comment): for the valid weekly schedule with
`targetWeekdays = [1]` (Monday) and a single missed log on a Thursday
(epoch day 0), `calculateExpectedDays` is 0 and `completedDays` is 0, so
the unguarded `completedDays / expectedDays` is `0/0 = NaN`, which
propagates through `Math.min`, the sum, and `Math.round` to a `NaN`
overall score. -/
theorem C1_consistencyScore_nan_on_valid_weekly_input :
    calculateConsistencyScore [⟨0, false⟩] "weekly" (some [1]) = JsNum.nan := by decide

/-- C2 counterexample: the claim says that for the scenario-B log list
(most recent day missed, the two previous consecutive days completed) the
current streak is 0.  `StreakService.calculateStreaks` instead skips the
leading missed entry and returns `currentStreak = 2`. -/
theorem C2_counterexample_calculateStreaks_scenarioB :
    (calculateStreaks [⟨3, false⟩, ⟨2, true⟩, ⟨1, true⟩]).currentStreak = 2 ∧
    ¬ (calculateStreaks [⟨3, false⟩, ⟨2, true⟩, ⟨1, true⟩]).currentStreak = 0 := by decide

/-- C2 (amended): the claimed backward scan — newest first, counting an
initial run of completed entries whose dates are exactly one day apart,
stopping at the first gap or first missed entry — describes
`HabitLogModel.getHabitStats`: its current streak equals
`specCurrentStreak` on every log list, and on the scenario-B list it
returns `currentStreak = 0` and `longestStreak = 2`.
(`StreakService.calculateStreaks` does not satisfy the claim; see the
counterexample.) -/
theorem C2_getHabitStats_current_streak_spec :
    (∀ logs : List LogEntry,
      (getHabitStatsCore logs).current_streak = specCurrentStreak logs) ∧
    (getHabitStatsCore [⟨3, false⟩, ⟨2, true⟩, ⟨1, true⟩]).current_streak = 0 ∧
    (getHabitStatsCore [⟨3, false⟩, ⟨2, true⟩, ⟨1, true⟩]).longest_streak = 2 :=
  ⟨hlCurrent_eq_specCurrentStreak, by decide, by decide⟩

/-! ## Helper lemmas: the longest-streak scan of getHabitStats -/

theorem foldr_max_le_of_mem : ∀ (l : List Nat) (a : Nat), a ∈ l → a ≤ l.foldr max 0 := by
  intro l
  induction l with
  | nil => simp
  | cons x t ih =>
    intro a ha
    rcases List.mem_cons.mp ha with h | h
    · subst h
      simp only [List.foldr_cons]
      exact le_max_left _ _
    · simp only [List.foldr_cons]
      exact le_trans (ih a h) (le_max_right _ _)

/-- The completed-run starting at the head is one of the runs `tailsMaxRun`
maximizes over. -/
theorem takeWhile_length_le_tailsMaxRun (l : List LogEntry) :
    (l.takeWhile (·.completed)).length ≤ tailsMaxRun l := by
  apply foldr_max_le_of_mem
  exact List.mem_map.mpr ⟨l, by simp [List.mem_tails], rfl⟩

theorem tailsMaxRun_cons (e : LogEntry) (t : List LogEntry) :
    tailsMaxRun (e :: t) = max ((e :: t).takeWhile (·.completed)).length (tailsMaxRun t) := by
  simp [tailsMaxRun]

/-- Closed form of the chronological fold of `getHabitStats`: its longest
streak is the best of the already-recorded maximum, the continuation of the
streak in progress, and the best run in the remaining list. -/
theorem hlChronoLoop_fst :
    ∀ (l : List LogEntry) (temp lg : Nat) (lastC : Option Int), temp ≤ lg →
      (hlChronoLoop l temp lg lastC).1 =
        max lg (max (temp + (l.takeWhile (·.completed)).length) (tailsMaxRun l)) := by
  intro l
  induction l with
  | nil =>
    intro temp lg lastC h
    simp only [hlChronoLoop, List.takeWhile_nil, List.length_nil]
    have : tailsMaxRun [] = 0 := by simp [tailsMaxRun]
    rw [this]
    omega
  | cons e t ih =>
    intro temp lg lastC h
    by_cases hc : e.completed
    · have step := ih (temp + 1) (max lg (temp + 1)) (some e.log_date) (le_max_right _ _)
      simp only [hlChronoLoop, hc, if_true]
      rw [step, tailsMaxRun_cons]
      simp only [List.takeWhile_cons, hc, if_true, List.length_cons]
      omega
    · have step := ih 0 lg lastC (Nat.zero_le _)
      simp only [hlChronoLoop, hc, if_false, Bool.false_eq_true]
      rw [step, tailsMaxRun_cons]
      simp only [List.takeWhile_cons, hc, if_false, List.length_nil, Bool.false_eq_true]
      have htw := takeWhile_length_le_tailsMaxRun t
      omega

/-- The longest streak computed by `getHabitStatsCore` coincides with the
spec-level maximum run `specLongestStreak` on every log list. -/
theorem hlLongest_eq_specLongestStreak (logs : List LogEntry) :
    (getHabitStatsCore logs).longest_streak = specLongestStreak logs := by
  have hdef : (getHabitStatsCore logs).longest_streak = (hlChronoLoop (sortAsc logs) 0 0 none).1 := rfl
  rw [hdef, hlChronoLoop_fst (sortAsc logs) 0 0 none (le_refl 0)]
  have h := takeWhile_length_le_tailsMaxRun (sortAsc logs)
  unfold specLongestStreak
  omega

/-- C3 counterexample: the claim says the longest streak scans the entire
list.  On four completed entries with a 7-day gap before the newest one,
`StreakService.calculateStreaks` breaks its single loop at the gap and
reports `longestStreak = 1`, while the claimed full chronological scan
yields 4. -/
theorem C3_counterexample_calculateStreaks_longest :
    (calculateStreaks [⟨1, true⟩, ⟨2, true⟩, ⟨3, true⟩, ⟨10, true⟩]).longestStreak = 1 ∧
    specLongestStreak [⟨1, true⟩, ⟨2, true⟩, ⟨3, true⟩, ⟨10, true⟩] = 4 := by decide

/-- C3 (amended): the claimed longest-streak rule — maximum run of
completed entries over the whole list in chronological order, reset at each
missed entry, no date-contiguity requirement — holds for
`HabitLogModel.getHabitStats` on every log list.
(`StreakService.calculateStreaks` does not satisfy it; its combined loop
stops at the current-streak break — see the counterexample.) -/
theorem C3_getHabitStats_longest_streak_spec :
    ∀ logs : List LogEntry, (getHabitStatsCore logs).longest_streak = specLongestStreak logs :=
  hlLongest_eq_specLongestStreak

/-! ## Helper lemmas: the last-completed date -/

/-- Greatest element of a list of dates, `none` for the empty list. -/
def maxD : List Int → Option Int
  | [] => none
  | a :: l =>
    match maxD l with
    | none => some a
    | some b => some (max a b)

theorem maxD_mem : ∀ (l : List Int) (m : Int), maxD l = some m → m ∈ l := by
  intro l
  induction l with
  | nil => intro m h; simp [maxD] at h
  | cons a t ih =>
    intro m h
    simp only [maxD] at h
    cases ht : maxD t with
    | none =>
      rw [ht] at h
      simp only [Option.some.injEq] at h
      subst h
      exact List.mem_cons_self a t
    | some b =>
      rw [ht] at h
      simp only [Option.some.injEq] at h
      rcases max_choice a b with h1 | h1
      · rw [h1] at h
        subst h
        exact List.mem_cons_self a t
      · rw [h1] at h
        subst h
        exact List.mem_cons_of_mem a (ih b ht)

theorem maxD_perm : ∀ {l₁ l₂ : List Int}, List.Perm l₁ l₂ → maxD l₁ = maxD l₂ := by
  intro l₁ l₂ h
  induction h with
  | nil => rfl
  | cons a _ ih => simp only [maxD, ih]
  | swap a b l =>
    simp only [maxD]
    cases maxD l with
    | none => simp [max_comm]
    | some m => simp [max_left_comm]
  | trans _ _ ih1 ih2 => exact ih1.trans ih2

/-- On a newest-first sorted list, the first completed entry carries the
greatest completed date. -/
theorem sorted_find_eq_maxD :
    ∀ (l : List LogEntry), List.Sorted dateGe l →
      ((l.find? (·.completed)).map (·.log_date)) =
        maxD ((l.filter (·.completed)).map (·.log_date)) := by
  intro l
  induction l with
  | nil => intro _; rfl
  | cons e t ih =>
    intro hs
    have hst : List.Sorted dateGe t := hs.of_cons
    by_cases hc : e.completed
    · rw [List.find?_cons_of_pos _ (by simpa using hc), List.filter_cons_of_pos (by simpa using hc)]
      simp only [List.map_cons, maxD]
      cases hm : maxD ((t.filter (·.completed)).map (·.log_date)) with
      | none => rfl
      | some b =>
        have hb := maxD_mem _ _ hm
        rcases List.mem_map.mp hb with ⟨y, hy, hyd⟩
        have hyt : y ∈ t := List.mem_of_mem_filter hy
        have hge : dateGe e y := List.rel_of_sorted_cons hs y hyt
        have hle : b ≤ e.log_date := by rw [← hyd]; exact hge
        simp [max_eq_left hle]
    · rw [List.find?_cons_of_neg _ (by simpa using hc), List.filter_cons_of_neg (by simpa using hc)]
      exact ih hst

/-- Once the current streak is positive, `calculateStreaks` never writes
`lastCompletedDate` again. -/
theorem streakLoop_last_of_ne :
    ∀ (l : List LogEntry) (cur temp lg : Nat) (lastD prevD : Option Int), cur ≠ 0 →
      (streakLoop l cur temp lg lastD prevD).lastCompletedDate = lastD := by
  intro l
  induction l with
  | nil => intros; rfl
  | cons e t ih =>
    intro cur temp lg lastD prevD h
    by_cases hc : e.completed
    · simp only [streakLoop, hc, if_true, h, if_false]
      cases prevD with
      | none => exact ih cur (temp + 1) _ lastD _ h
      | some pd =>
        by_cases hd : pd - e.log_date = 1
        · simp only [hd, if_true]
          exact ih (cur + 1) (temp + 1) _ lastD _ (Nat.succ_ne_zero cur)
        · simp only [hd, if_false]
    · simp only [streakLoop, hc, if_false, Bool.false_eq_true]
      exact ih cur 0 lg lastD _ h

/-- While no completed entry has been seen, `calculateStreaks` ends up
recording the date of the first completed entry it meets, if any. -/
theorem streakLoop_last_zero :
    ∀ (l : List LogEntry) (temp lg : Nat) (prevD : Option Int),
      (streakLoop l 0 temp lg none prevD).lastCompletedDate =
        ((l.find? (·.completed)).map (·.log_date)) := by
  intro l
  induction l with
  | nil => intros; rfl
  | cons e t ih =>
    intro temp lg prevD
    by_cases hc : e.completed
    · simp only [streakLoop, hc, if_true, if_pos rfl]
      rw [streakLoop_last_of_ne t 1 _ _ _ _ one_ne_zero,
        List.find?_cons_of_pos _ (by simpa using hc)]
      rfl
    · simp only [streakLoop, hc, if_false, Bool.false_eq_true]
      rw [List.find?_cons_of_neg _ (by simpa using hc)]
      exact ih 0 lg _

theorem calculateStreaks_last (logs : List LogEntry) :
    (calculateStreaks logs).lastCompletedDate =
      maxD (((sortDesc logs).filter (·.completed)).map (·.log_date)) := by
  unfold calculateStreaks
  by_cases h : logs.length = 0
  · have hnil : logs = [] := List.length_eq_zero.mp h
    subst hnil
    rfl
  · simp only [h, if_false]
    rw [streakLoop_last_zero]
    exact sorted_find_eq_maxD _ (List.sorted_insertionSort dateGe logs)

/-- The chronological fold of `getHabitStats` records the date of the last
completed entry, i.e. of the first completed entry of the reversed list. -/
theorem hlChronoLoop_snd :
    ∀ (l : List LogEntry) (temp lg : Nat) (lastC : Option Int),
      (hlChronoLoop l temp lg lastC).2 =
        (match l.reverse.find? (·.completed) with
          | some e => some e.log_date
          | none => lastC) := by
  intro l
  induction l with
  | nil => intros; rfl
  | cons e t ih =>
    intro temp lg lastC
    rw [List.reverse_cons, List.find?_append]
    by_cases hc : e.completed
    · simp only [hlChronoLoop, hc, if_true]
      rw [ih]
      cases t.reverse.find? (·.completed) with
      | none => simp [List.find?, hc]
      | some x => simp [Option.or]
    · simp only [hlChronoLoop, hc, if_false, Bool.false_eq_true]
      rw [ih]
      cases t.reverse.find? (·.completed) with
      | none => simp [List.find?, hc]
      | some x => simp [Option.or]

/-- C5 counterexample: the claim says both streak computations agree.  On
the scenario-B list they disagree on the current streak
(`calculateStreaks` returns 2, `getHabitStats` returns 0). -/
theorem C5_counterexample_streaks_disagree :
    (calculateStreaks [⟨3, false⟩, ⟨2, true⟩, ⟨1, true⟩]).currentStreak = 2 ∧
    (getHabitStatsCore [⟨3, false⟩, ⟨2, true⟩, ⟨1, true⟩]).current_streak = 0 := by
  exact ⟨by decide, by decide⟩

/-- C5 (amended): the two computations agree on the last-completed date on
every log list (both report the greatest completed date, or null); they do
not agree on the streak fields in general (see the counterexample). -/
theorem C5_lastCompleted_agrees :
    ∀ logs : List LogEntry,
      (calculateStreaks logs).lastCompletedDate = (getHabitStatsCore logs).last_completed := by
  intro logs
  rw [calculateStreaks_last]
  have hdef : (getHabitStatsCore logs).last_completed = (hlChronoLoop (sortAsc logs) 0 0 none).2 :=
    rfl
  rw [hdef, hlChronoLoop_snd]
  have hmap : (match (sortAsc logs).reverse.find? (·.completed) with
      | some e => some e.log_date
      | none => (none : Option Int)) =
      (((sortAsc logs).reverse.find? (·.completed)).map (·.log_date)) := by
    cases (sortAsc logs).reverse.find? (·.completed) <;> rfl
  rw [hmap]
  have hs : List.Sorted dateGe ((sortAsc logs).reverse) := by
    have h1 : List.Sorted dateLe (sortAsc logs) := List.sorted_insertionSort dateLe logs
    have h2 : List.Pairwise (fun a b => dateGe b a) (sortAsc logs) := h1.imp (fun hab => hab)
    exact List.pairwise_reverse.mpr h2
  rw [sorted_find_eq_maxD _ hs]
  apply maxD_perm
  apply List.Perm.map
  apply List.Perm.filter
  exact (List.perm_insertionSort dateGe logs).trans
    ((List.perm_insertionSort dateLe logs).symm.trans (List.reverse_perm _).symm)

/-! ## Helper lemmas: the two sort orders under the distinct-dates invariant -/

theorem nodup_pairwise_ne {l : List LogEntry} (h : (l.map (·.log_date)).Nodup) :
    l.Pairwise (fun a b => a.log_date ≠ b.log_date) := List.pairwise_map.mp h

theorem sorted_strict_of_sorted_nodup {l : List LogEntry}
    (hs : List.Sorted dateLe l) (h : (l.map (·.log_date)).Nodup) :
    l.Pairwise (fun a b => a.log_date < b.log_date ∨ a = b) := by
  have hne := nodup_pairwise_ne h
  exact (hs.and hne).imp (fun hab => Or.inl (lt_of_le_of_ne hab.1 hab.2))

/-- Under the data-model invariant (at most one entry per date), the
oldest-first sort is exactly the reverse of the newest-first sort. -/
theorem sortAsc_eq_reverse_sortDesc (logs : List LogEntry)
    (hnd : (logs.map (·.log_date)).Nodup) :
    sortAsc logs = (sortDesc logs).reverse := by
  have hperm : List.Perm (sortAsc logs) ((sortDesc logs).reverse) :=
    (List.perm_insertionSort dateLe logs).trans
      ((List.perm_insertionSort dateGe logs).symm.trans (List.reverse_perm _).symm)
  have hnd₁ : ((sortAsc logs).map (·.log_date)).Nodup :=
    (((List.perm_insertionSort dateLe logs).map (·.log_date)).symm).nodup hnd
  have hs₁ : (sortAsc logs).Pairwise (fun a b => a.log_date < b.log_date ∨ a = b) :=
    sorted_strict_of_sorted_nodup (List.sorted_insertionSort dateLe logs) hnd₁
  have hsd : List.Sorted dateGe (sortDesc logs) := List.sorted_insertionSort dateGe logs
  have hrev : List.Sorted dateLe ((sortDesc logs).reverse) :=
    List.pairwise_reverse.mpr (hsd.imp (fun hab => hab))
  have hnd₂ : (((sortDesc logs).reverse).map (·.log_date)).Nodup := (hperm.map (·.log_date)).nodup hnd₁
  have hs₂ : ((sortDesc logs).reverse).Pairwise (fun a b => a.log_date < b.log_date ∨ a = b) :=
    sorted_strict_of_sorted_nodup hrev hnd₂
  exact @List.eq_of_perm_of_sorted LogEntry (fun a b => a.log_date < b.log_date ∨ a = b)
    ⟨fun a b hab hba => by
      rcases hab with h1 | h1
      · rcases hba with h2 | h2
        · exact absurd h2 (not_lt.mpr (le_of_lt h1))
        · exact h2.symm
      · exact h1⟩
    _ _ hperm hs₁ hs₂

theorem countConsecutive_take_completed :
    ∀ (l : List LogEntry) (d : Int),
      countConsecutive d l ≤ l.length ∧
      ∀ e ∈ l.take (countConsecutive d l), e.completed = true := by
  intro l
  induction l with
  | nil => intro d; exact ⟨Nat.le_refl 0, by simp⟩
  | cons e t ih =>
    intro d
    by_cases hc : e.completed ∧ e.log_date = d - 1
    · rw [countConsecutive, if_pos hc]
      refine ⟨by have := (ih e.log_date).1; simp only [List.length_cons]; omega, ?_⟩
      intro x hx
      rw [List.take_succ_cons] at hx
      rcases List.mem_cons.mp hx with h1 | h1
      · subst h1; exact hc.1
      · exact (ih e.log_date).2 x h1
    · rw [countConsecutive, if_neg hc]
      exact ⟨Nat.zero_le _, by simp⟩

/-- The current streak counts an all-completed initial segment of the
newest-first sorted list. -/
theorem take_specCurrentStreak_completed (logs : List LogEntry) :
    specCurrentStreak logs ≤ (sortDesc logs).length ∧
    ∀ e ∈ (sortDesc logs).take (specCurrentStreak logs), e.completed = true := by
  unfold specCurrentStreak
  cases h : sortDesc logs with
  | nil => simp
  | cons hd t =>
    by_cases hc : hd.completed
    · simp only [hc, if_true]
      have hcc := countConsecutive_take_completed t hd.log_date
      refine ⟨by simp only [List.length_cons]; omega, ?_⟩
      intro x hx
      rw [List.take_succ_cons] at hx
      rcases List.mem_cons.mp hx with h1 | h1
      · subst h1; exact hc
      · exact hcc.2 x h1
    · simp [hc]

/-- An all-completed suffix bounds the maximum run from below. -/
theorem length_le_tailsMaxRun_append (X Y : List LogEntry)
    (hY : ∀ e ∈ Y, e.completed = true) :
    Y.length ≤ tailsMaxRun (X ++ Y) := by
  have hYtw : Y.takeWhile (·.completed) = Y := List.takeWhile_eq_self_iff.mpr (by simpa using hY)
  have hmem : Y ∈ (X ++ Y).tails := (List.mem_tails Y (X ++ Y)).mpr (List.suffix_append X Y)
  have hb := foldr_max_le_of_mem (((X ++ Y).tails.map
      (fun t => (t.takeWhile (·.completed)).length))) (Y.takeWhile (·.completed)).length
    (List.mem_map.mpr ⟨Y, hmem, rfl⟩)
  rw [hYtw] at hb
  exact hb

/-- C9 counterexample: the claim says the streak calculation always returns
`currentStreak ≤ longestStreak`.  On [day-3 completed, day-2 missed, day-1
completed], `StreakService.calculateStreaks` carries the current streak
across the missed day (2) while its longest streak is 1. -/
theorem C9_counterexample_calculateStreaks_current_gt_longest :
    (calculateStreaks [⟨3, true⟩, ⟨2, false⟩, ⟨1, true⟩]).currentStreak = 2 ∧
    (calculateStreaks [⟨3, true⟩, ⟨2, false⟩, ⟨1, true⟩]).longestStreak = 1 := by decide

/-- C9 (amended): the invariant `currentStreak ≤ longestStreak` holds for
the streak computation of `HabitLogModel.getHabitStats` on every log list
satisfying the data-model invariant of at most one entry per date.
(`StreakService.calculateStreaks` violates it; see the counterexample.) -/
theorem C9_getHabitStats_current_le_longest :
    ∀ logs : List LogEntry, (logs.map (·.log_date)).Nodup →
      (getHabitStatsCore logs).current_streak ≤ (getHabitStatsCore logs).longest_streak := by
  intro logs hnd
  rw [hlCurrent_eq_specCurrentStreak, hlLongest_eq_specLongestStreak]
  unfold specLongestStreak
  rw [sortAsc_eq_reverse_sortDesc logs hnd]
  obtain ⟨hlen, hcomp⟩ := take_specCurrentStreak_completed logs
  have hsplit : (sortDesc logs).reverse =
      ((sortDesc logs).drop (specCurrentStreak logs)).reverse ++
        ((sortDesc logs).take (specCurrentStreak logs)).reverse := by
    rw [← List.reverse_append, List.take_append_drop]
  rw [hsplit]
  have hklen : ((sortDesc logs).take (specCurrentStreak logs)).reverse.length =
      specCurrentStreak logs := by
    rw [List.length_reverse, List.length_take]
    omega
  have hcomp₂ : ∀ e ∈ ((sortDesc logs).take (specCurrentStreak logs)).reverse,
      e.completed = true := fun e he => hcomp e (List.mem_reverse.mp he)
  calc specCurrentStreak logs
      = ((sortDesc logs).take (specCurrentStreak logs)).reverse.length := hklen.symm
    _ ≤ _ := length_le_tailsMaxRun_append _ _ hcomp₂

/-- C9 witness: the amended theorem applied to a concrete distinct-date
log list. -/
theorem C9_getHabitStats_current_le_longest_witness :
    (getHabitStatsCore [⟨3, false⟩, ⟨2, true⟩, ⟨1, true⟩]).current_streak ≤
      (getHabitStatsCore [⟨3, false⟩, ⟨2, true⟩, ⟨1, true⟩]).longest_streak :=
  C9_getHabitStats_current_le_longest _ (by decide)

/-! ## Helper lemmas: appending a newer entry -/

/-- Appending an entry dated after every existing entry puts it at the head
of the newest-first sort. -/
theorem sortDesc_append_of_lt :
    ∀ (l : List LogEntry) (x : LogEntry), (∀ e ∈ l, e.log_date < x.log_date) →
      sortDesc (l ++ [x]) = x :: sortDesc l := by
  intro l
  induction l with
  | nil => intro x _; rfl
  | cons a t ih =>
    intro x hx
    have hax : ¬ dateGe a x := by
      have := hx a (List.mem_cons_self a t)
      unfold dateGe
      omega
    have h1 : sortDesc ((a :: t) ++ [x]) = List.orderedInsert dateGe a (sortDesc (t ++ [x])) := rfl
    rw [h1, ih x (fun e he => hx e (List.mem_cons_of_mem a he))]
    simp only [List.orderedInsert, if_neg hax]
    rfl

/-- Lockstep lemma for `calculateStreaks`: a strictly positive incoming
current streak passes through the rest of the scan as an additive offset. -/
theorem streakLoop_succ :
    ∀ (l : List LogEntry) (prevD : Option Int) (cur t₁ t₂ lg₁ lg₂ : Nat)
      (ld₁ ld₂ : Option Int), 1 ≤ cur →
      (streakLoop l (cur + 1) t₂ lg₂ ld₂ prevD).currentStreak =
        (streakLoop l cur t₁ lg₁ ld₁ prevD).currentStreak + 1 := by
  intro l
  induction l with
  | nil => intros; rfl
  | cons e t ih =>
    intro prevD cur t₁ t₂ lg₁ lg₂ ld₁ ld₂ hcur
    by_cases hc : e.completed
    · have h1 : ¬ (cur = 0) := by omega
      have h2 : ¬ (cur + 1 = 0) := by omega
      simp only [streakLoop, hc, if_true, h1, h2, if_false]
      cases prevD with
      | none => exact ih _ cur _ _ _ _ _ _ hcur
      | some pd =>
        by_cases hd : pd - e.log_date = 1
        · simp only [hd, if_true]
          exact ih _ (cur + 1) _ _ _ _ _ _ (by omega)
        · simp only [hd, if_false]
    · simp only [streakLoop, hc, if_false, Bool.false_eq_true]
      exact ih _ cur _ _ _ _ _ _ hcur

/-- C10: appending one more completed entry for the next consecutive
calendar day to a list whose most recent entry is completed never decreases
the current streak — for both implementations (indeed both increase it
by one). -/
theorem C10_append_completed_day_monotone :
    ∀ (logs : List LogEntry) (h : LogEntry) (rest : List LogEntry),
      sortDesc logs = h :: rest → h.completed = true →
      (calculateStreaks (logs ++ [⟨h.log_date + 1, true⟩])).currentStreak ≥
          (calculateStreaks logs).currentStreak ∧
      (getHabitStatsCore (logs ++ [⟨h.log_date + 1, true⟩])).current_streak ≥
          (getHabitStatsCore logs).current_streak := by
  intro logs h rest hsort hcomp
  have hs : List.Sorted dateGe (h :: rest) := hsort ▸ List.sorted_insertionSort dateGe logs
  have hlt : ∀ e ∈ logs, e.log_date < h.log_date + 1 := by
    intro e he
    have he₂ : e ∈ sortDesc logs := ((List.perm_insertionSort dateGe logs).mem_iff).mpr he
    rw [hsort] at he₂
    rcases List.mem_cons.mp he₂ with h1 | h1
    · subst h1; omega
    · have := List.rel_of_sorted_cons hs e h1
      unfold dateGe at this
      omega
  have hnew : sortDesc (logs ++ [⟨h.log_date + 1, true⟩]) =
      ⟨h.log_date + 1, true⟩ :: sortDesc logs := sortDesc_append_of_lt logs _ hlt
  have hne : ¬ (logs.length = 0) := by
    intro h0
    rw [List.length_eq_zero.mp h0] at hsort
    exact List.cons_ne_nil h rest hsort.symm
  have hd1 : h.log_date + 1 - h.log_date = 1 := by omega
  constructor
  · have hne₂ : ¬ ((logs ++ [(⟨h.log_date + 1, true⟩ : LogEntry)]).length = 0) := by simp
    unfold calculateStreaks
    rw [if_neg hne, if_neg hne₂, hnew, hsort]
    have step1 : streakLoop (⟨h.log_date + 1, true⟩ :: h :: rest) 0 0 0 none none =
        streakLoop (h :: rest) 1 1 1 (some (h.log_date + 1)) (some (h.log_date + 1)) := by
      simp [streakLoop]
    have step2 : streakLoop (h :: rest) 1 1 1 (some (h.log_date + 1)) (some (h.log_date + 1)) =
        streakLoop rest 2 2 2 (some (h.log_date + 1)) (some h.log_date) := by
      simp [streakLoop, hcomp, hd1]
    have step0 : streakLoop (h :: rest) 0 0 0 none none =
        streakLoop rest 1 1 1 (some h.log_date) (some h.log_date) := by
      simp [streakLoop, hcomp]
    rw [step1, step2, step0]
    have heq := streakLoop_succ rest (some h.log_date) 1 1 2 1 2 (some h.log_date)
      (some (h.log_date + 1)) (le_refl 1)
    simp only [show (1 : Nat) + 1 = 2 from rfl] at heq
    omega
  · have hdef₁ : (getHabitStatsCore (logs ++ [⟨h.log_date + 1, true⟩])).current_streak =
        hlCurrentLoop (sortDesc (logs ++ [⟨h.log_date + 1, true⟩])) none 0 := rfl
    have hdef₂ : (getHabitStatsCore logs).current_streak =
        hlCurrentLoop (sortDesc logs) none 0 := rfl
    rw [hdef₁, hdef₂, hnew, hsort]
    have s1 : hlCurrentLoop (⟨h.log_date + 1, true⟩ :: h :: rest) none 0 =
        hlCurrentLoop (h :: rest) (some (h.log_date + 1)) 1 := by
      simp [hlCurrentLoop]
    have s2 : hlCurrentLoop (h :: rest) (some (h.log_date + 1)) 1 =
        hlCurrentLoop rest (some h.log_date) 2 := by
      simp [hlCurrentLoop, hcomp, hd1]
    have s0 : hlCurrentLoop (h :: rest) none 0 =
        hlCurrentLoop rest (some h.log_date) 1 := by
      simp [hlCurrentLoop, hcomp]
    rw [s1, s2, s0]
    have e1 := hlCurrentLoop_eq_countConsecutive rest h.log_date 1
    have e2 := hlCurrentLoop_eq_countConsecutive rest h.log_date 0
    simp only [show (1 : Nat) + 1 = 2 from rfl] at e1
    simp only [show (0 : Nat) + 1 = 1 from rfl] at e2
    omega

/-- C10 witness: the monotonicity theorem applied to the one-entry list
with a completed most-recent day. -/
theorem C10_append_completed_day_monotone_witness :
    (calculateStreaks ([⟨1, true⟩] ++ [⟨1 + 1, true⟩])).currentStreak ≥
        (calculateStreaks [⟨1, true⟩]).currentStreak ∧
    (getHabitStatsCore ([⟨1, true⟩] ++ [⟨1 + 1, true⟩])).current_streak ≥
        (getHabitStatsCore [⟨1, true⟩]).current_streak :=
  C10_append_completed_day_monotone [⟨1, true⟩] ⟨1, true⟩ [] (by decide) rfl

/-! ## C4: the schedule-adherence component -/

/-- C4 counterexample: the claim computes `expectedDays` as the number of
distinct calendar *dates* with a targeted weekday and demands score 0 when
`expectedDays = 0`.  The code counts distinct *weekdays* instead: with
`targetWeekdays = [1]` (Monday) and logs on two different Mondays (epoch
days 4 and 11), one completed, the code computes `expectedDays = 1` and
score 20, while the claimed formula gives `expectedDays = 2` and score 10. -/
theorem C4_counterexample_weekly_expected_days :
    scheduleScoreOf [⟨4, true⟩, ⟨11, false⟩] "weekly" (some [1]) = JsNum.num 20 ∧
    claimWeeklyScheduleScore [⟨4, true⟩, ⟨11, false⟩] [1] = 10 ∧
    ¬ scheduleScoreOf [⟨4, true⟩, ⟨11, false⟩] "weekly" (some [1]) =
        JsNum.num (claimWeeklyScheduleScore [⟨4, true⟩, ⟨11, false⟩] [1]) := by
  have hexp : calculateExpectedDays [⟨4, true⟩, ⟨11, false⟩] [1] = 1 := by decide
  have hlen : (([⟨4, true⟩, ⟨11, false⟩] : List LogEntry).filter (·.completed)).length = 1 := by
    decide
  have h1 : scheduleScoreOf [⟨4, true⟩, ⟨11, false⟩] "weekly" (some [1]) = JsNum.num 20 := by
    unfold scheduleScoreOf
    rw [if_pos ⟨rfl, rfl⟩]
    simp only [Option.getD_some, hexp, hlen]
    norm_num [JsNum.div, JsNum.mul, JsNum.jsmin]
  have h2 : claimWeeklyScheduleScore [⟨4, true⟩, ⟨11, false⟩] [1] = 10 := by
    have he2 : ((([⟨4, true⟩, ⟨11, false⟩] : List LogEntry).map (·.log_date)).dedup.filter
        (fun d => (if getDay d = 0 then 7 else getDay d) ∈ ([1] : List Nat))).length = 2 := by
      decide
    unfold claimWeeklyScheduleScore
    rw [he2, hlen]
    norm_num
  refine ⟨h1, h2, ?_⟩
  rw [h1, h2]
  intro hcon
  simp only [JsNum.num.injEq] at hcon
  norm_num at hcon

/-- C4 (amended): the Daily rule holds as claimed (20 points iff some
completed entry exists).  For Weekly schedules, `expectedDays` is the count
of distinct normalized *weekdays* occurring in the series that are members
of `targetWeekdays` (not distinct dates); when it is positive the score is
`min(20, (completedDays/expectedDays)*20)` as claimed, but when it is zero
the unguarded division yields 20 if `completedDays > 0` and NaN if
`completedDays = 0` — never the claimed 0. -/
theorem C4_schedule_adherence_characterization :
    ∀ (logs : List LogEntry) (target : List Nat) (td : Option (List Nat)),
      ((∃ e ∈ logs, e.completed = true) →
        scheduleScoreOf logs "daily" td = JsNum.num 20) ∧
      ((∀ e ∈ logs, e.completed = false) →
        scheduleScoreOf logs "daily" td = JsNum.num 0) ∧
      (0 < calculateExpectedDays logs target →
        scheduleScoreOf logs "weekly" (some target) =
          JsNum.num (min 20 ((((logs.filter (·.completed)).length : ℚ) /
            (calculateExpectedDays logs target : ℚ)) * 20))) ∧
      (calculateExpectedDays logs target = 0 → 0 < (logs.filter (·.completed)).length →
        scheduleScoreOf logs "weekly" (some target) = JsNum.num 20) ∧
      (calculateExpectedDays logs target = 0 → (logs.filter (·.completed)).length = 0 →
        scheduleScoreOf logs "weekly" (some target) = JsNum.nan) := by
  intro logs target td
  have hdaily : ¬ (("daily" : String) = "weekly" ∧ td.isSome = true) := by
    intro hcon
    exact absurd hcon.1 (by decide)
  have hweekly : (("weekly" : String) = "weekly" ∧ (some target).isSome = true) := ⟨rfl, rfl⟩
  refine ⟨?_, ?_, ?_, ?_, ?_⟩
  · intro hex
    obtain ⟨e, he, hc⟩ := hex
    have hmem : e ∈ logs.filter (·.completed) := List.mem_filter.mpr ⟨he, by simp [hc]⟩
    have hpos : 0 < (logs.filter (·.completed)).length := List.length_pos_of_mem hmem
    have hq : (0 : ℚ) < ((logs.filter (·.completed)).length : ℚ) := by exact_mod_cast hpos
    unfold scheduleScoreOf
    rw [if_neg hdaily, if_pos rfl, if_pos hq]
  · intro hall
    have hnil : logs.filter (·.completed) = [] := by
      rw [List.filter_eq_nil_iff]
      intro a ha
      simp [hall a ha]
    unfold scheduleScoreOf
    rw [if_neg hdaily, if_pos rfl, hnil]
    norm_num
  · intro hpos
    have hne : ¬ ((calculateExpectedDays logs target : ℚ) = 0) := by
      exact_mod_cast Nat.pos_iff_ne_zero.mp hpos
    unfold scheduleScoreOf
    rw [if_pos hweekly]
    simp only [Option.getD_some]
    simp only [JsNum.div, if_neg hne, JsNum.mul, JsNum.jsmin]
    rw [min_comm]
  · intro hz hpos
    have hq0 : ((calculateExpectedDays logs target : ℚ)) = 0 := by exact_mod_cast hz
    have hqpos : (0 : ℚ) < ((logs.filter (·.completed)).length : ℚ) := by exact_mod_cast hpos
    unfold scheduleScoreOf
    rw [if_pos hweekly]
    simp only [Option.getD_some, hq0]
    simp [JsNum.div, JsNum.mul, JsNum.jsmin, hqpos]
  · intro hz hc0
    have hq0 : ((calculateExpectedDays logs target : ℚ)) = 0 := by exact_mod_cast hz
    have hqc : (((logs.filter (·.completed)).length : ℚ)) = 0 := by exact_mod_cast hc0
    unfold scheduleScoreOf
    rw [if_pos hweekly]
    simp only [Option.getD_some, hq0, hqc]
    simp [JsNum.div, JsNum.mul, JsNum.jsmin]

/-- C4 witness: the characterization applied at concrete inputs, each
hypothesis discharged. -/
theorem C4_schedule_adherence_witness :
    scheduleScoreOf [⟨4, true⟩] "daily" none = JsNum.num 20 ∧
    scheduleScoreOf [⟨4, true⟩] "weekly" (some [1]) =
      JsNum.num (min 20 ((((([⟨4, true⟩] : List LogEntry).filter (·.completed)).length : ℚ) /
        ((calculateExpectedDays [⟨4, true⟩] [1]) : ℚ)) * 20)) ∧
    scheduleScoreOf [⟨0, false⟩] "weekly" (some [1]) = JsNum.nan :=
  ⟨(C4_schedule_adherence_characterization [⟨4, true⟩] [1] none).1 ⟨⟨4, true⟩, by decide, rfl⟩,
    (C4_schedule_adherence_characterization [⟨4, true⟩] [1] none).2.2.1 (by decide),
    (C4_schedule_adherence_characterization [⟨0, false⟩] [1] none).2.2.2.2 (by decide) (by decide)⟩

/-! ## C7: the milestone projection -/

/-- `find?` with the strictly-greater predicate on an ascending list finds
the least element above the threshold, or certifies none exists. -/
theorem find_gt_spec :
    ∀ (l : List Nat) (c : Nat), l.Pairwise (· ≤ ·) →
      (match l.find? (fun m => decide (c < m)) with
        | some v => v ∈ l ∧ c < v ∧ ∀ m ∈ l, c < m → v ≤ m
        | none => ∀ m ∈ l, m ≤ c) := by
  intro l
  induction l with
  | nil => intro c _; simp [List.find?]
  | cons a t ih =>
    intro c hp
    by_cases hca : c < a
    · rw [List.find?_cons_of_pos _ (by simpa using hca)]
      refine ⟨List.mem_cons_self a t, hca, ?_⟩
      intro m hm _
      rcases List.mem_cons.mp hm with h1 | h1
      · omega
      · exact List.rel_of_pairwise_cons hp h1
    · rw [List.find?_cons_of_neg _ (by simpa using hca)]
      have hspec := ih c hp.of_cons
      cases hf : t.find? (fun m => decide (c < m)) with
      | some v =>
        rw [hf] at hspec
        refine ⟨List.mem_cons_of_mem a hspec.1, hspec.2.1, ?_⟩
        intro m hm hcm
        rcases List.mem_cons.mp hm with h1 | h1
        · omega
        · exact hspec.2.2 m h1 hcm
      | none =>
        rw [hf] at hspec
        intro m hm
        rcases List.mem_cons.mp hm with h1 | h1
        · omega
        · exact hspec m h1

theorem predictNextMilestone_next (cur : Nat) (rate : ℚ) :
    (predictNextMilestone cur rate).nextMilestone =
      (milestonesLadder.find? (fun m => decide (cur < m))).getD (cur + 7) := rfl

theorem predictNextMilestone_days (cur : Nat) (rate : ℚ) :
    (predictNextMilestone cur rate).daysToReach =
      (if 0 < rate / 100 then
        ⌈(((predictNextMilestone cur rate).nextMilestone : ℚ) - (cur : ℚ)) / (rate / 100)⌉
      else 99) := rfl

theorem predictNextMilestone_conf (cur : Nat) (rate : ℚ) :
    (predictNextMilestone cur rate).confidence = min (round (rate / 100 * 100)) 95 := rfl

/-- C7: `predictNextMilestone` returns the first ladder value strictly
above the current streak (or `streak + 7` past the ladder), the ceiling
estimate with the 99 sentinel at zero completion rate, and the confidence
`min(round(completionRate), 95)`. -/
theorem C7_milestone_projection :
    ∀ (cur : Nat) (rate : ℚ), 0 ≤ rate →
      (((predictNextMilestone cur rate).nextMilestone ∈ milestonesLadder ∧
          cur < (predictNextMilestone cur rate).nextMilestone ∧
          ∀ m ∈ milestonesLadder, cur < m → (predictNextMilestone cur rate).nextMilestone ≤ m) ∨
        ((∀ m ∈ milestonesLadder, m ≤ cur) ∧
          (predictNextMilestone cur rate).nextMilestone = cur + 7)) ∧
      (0 < rate →
        (predictNextMilestone cur rate).daysToReach =
          ⌈(((predictNextMilestone cur rate).nextMilestone : ℚ) - (cur : ℚ)) / (rate / 100)⌉) ∧
      (rate = 0 → (predictNextMilestone cur rate).daysToReach = 99) ∧
      (predictNextMilestone cur rate).confidence = min (round rate) 95 := by
  intro cur rate hrate
  have hsorted : milestonesLadder.Pairwise (· ≤ ·) := by decide
  have hfind := find_gt_spec milestonesLadder cur hsorted
  refine ⟨?_, ?_, ?_, ?_⟩
  · cases hf : milestonesLadder.find? (fun m => decide (cur < m)) with
    | some v =>
      rw [hf] at hfind
      left
      have hnm : (predictNextMilestone cur rate).nextMilestone = v := by
        rw [predictNextMilestone_next, hf]
        rfl
      rw [hnm]
      exact hfind
    | none =>
      rw [hf] at hfind
      right
      have hnm : (predictNextMilestone cur rate).nextMilestone = cur + 7 := by
        rw [predictNextMilestone_next, hf]
        rfl
      exact ⟨hfind, hnm⟩
  · intro hpos
    have h100 : 0 < rate / 100 := by positivity
    rw [predictNextMilestone_days, if_pos h100]
  · intro hzero
    subst hzero
    rw [predictNextMilestone_days]
    norm_num
  · rw [predictNextMilestone_conf, div_mul_cancel₀ rate (by norm_num : (100 : ℚ) ≠ 0)]

/-- C7 witness: the projection theorem applied at `currentStreak = 5`,
`completionRate = 0` (scenario E: sentinel 99, no error). -/
theorem C7_milestone_projection_witness :
    (predictNextMilestone 5 0).daysToReach = 99 ∧
    (predictNextMilestone 5 0).confidence = min (round (0 : ℚ)) 95 :=
  ⟨(C7_milestone_projection 5 0 (le_refl 0)).2.2.1 rfl,
    (C7_milestone_projection 5 0 (le_refl 0)).2.2.2⟩

/-! ## C6: failure propagation in getUserStats -/

/-- A per-habit stats computation that succeeds for habit 1 and fails for
every other habit. -/
def calcBoom : HabitRow → Except String HabitCompletionEntry :=
  fun h => if h.id = 1 then .ok ⟨1, "a", 50, 3⟩ else .error "db failure"

/-- C6 counterexample: the claim says a failing habit is replaced by zeroed
stats and aggregation continues.  With two habits whose second stats
computation fails, `getUserStats` propagates the failure instead of
returning any `UserStats`. -/
theorem C6_counterexample_error_propagates :
    getUserStats [⟨1, "a"⟩, ⟨2, "b"⟩] calcBoom 0 = Except.error "db failure" := rfl

theorem mapAll_error :
    ∀ (l : List HabitRow) (f : HabitRow → Except String HabitCompletionEntry)
      (h : HabitRow) (e : String),
      h ∈ l → f h = .error e → ∃ e₂, mapAll f l = .error e₂ := by
  intro l f h e
  induction l with
  | nil => intro hmem _; simp at hmem
  | cons a t ih =>
    intro hmem hfail
    rcases List.mem_cons.mp hmem with h1 | h1
    · subst h1
      exact ⟨e, by simp [mapAll, hfail]⟩
    · cases ha : f a with
      | error e₃ => exact ⟨e₃, by simp [mapAll, ha]⟩
      | ok r =>
        obtain ⟨e₂, he₂⟩ := ih h1 hfail
        exact ⟨e₂, by simp [mapAll, ha, he₂]⟩

/-- C6 (amended): a failing per-habit stats computation aborts the whole
aggregation — whenever the computation fails for some habit of the list,
`getUserStats` returns an error rather than a `UserStats` covering the
remaining habits. -/
theorem C6_failure_aborts_aggregation :
    ∀ (habits : List HabitRow) (calcHabit : HabitRow → Except String HabitCompletionEntry)
      (tot : Nat) (h : HabitRow) (e : String),
      h ∈ habits → calcHabit h = .error e →
      ∃ e₂, getUserStats habits calcHabit tot = .error e₂ := by
  intro habits f tot h e hmem hfail
  obtain ⟨e₂, he₂⟩ := mapAll_error habits f h e hmem hfail
  refine ⟨e₂, ?_⟩
  have hne : ¬ (habits.length = 0) := by
    intro h0
    rw [List.length_eq_zero.mp h0] at hmem
    simp at hmem
  unfold getUserStats
  rw [if_neg hne, he₂]

/-- C6 witness: the propagation theorem applied to the two-habit list with
the failing second habit. -/
theorem C6_failure_aborts_aggregation_witness :
    ∃ e₂, getUserStats [⟨1, "a"⟩, ⟨2, "b"⟩] calcBoom 0 = Except.error e₂ :=
  C6_failure_aborts_aggregation [⟨1, "a"⟩, ⟨2, "b"⟩] calcBoom 0 ⟨2, "b"⟩ "db failure"
    (by decide) rfl

/-! ## C8: the cross-habit aggregation -/

/-- Boolean test for one completion-rate value, used to state sort
stability. -/
def rateEq (q : ℚ) : HabitCompletionEntry → Bool :=
  fun r => decide (r.completion_rate = q)

theorem aggregateUserStats_overall (rows : List HabitCompletionEntry) (nh tot : Nat) :
    (aggregateUserStats rows nh tot).overall_completion_rate =
      round2 (if rows.length > 0 then
        (rows.map (·.completion_rate)).sum / (rows.length : ℚ) else 0) := rfl

theorem aggregateUserStats_current (rows : List HabitCompletionEntry) (nh tot : Nat) :
    (aggregateUserStats rows nh tot).current_streak =
      (rows.map (·.current_streak)).foldr max 0 := rfl

theorem aggregateUserStats_average (rows : List HabitCompletionEntry) (nh tot : Nat) :
    (aggregateUserStats rows nh tot).average_streak =
      round2 (if rows.length > 0 then
        (((rows.map (·.current_streak) : List Nat).sum : ℚ)) / (rows.length : ℚ) else 0) := by
  have h : (aggregateUserStats rows nh tot).average_streak =
      round2 (if (rows.map (·.current_streak)).length > 0 then
        (((rows.map (·.current_streak) : List Nat).sum : ℚ)) /
          ((rows.map (·.current_streak)).length : ℚ)
      else 0) := rfl
  rw [h, List.length_map]

theorem foldr_max_mem : ∀ (l : List Nat), l ≠ [] → l.foldr max 0 ∈ l := by
  intro l
  induction l with
  | nil => intro h; exact absurd rfl h
  | cons a t ih =>
    intro _
    cases t with
    | nil => simp
    | cons b u =>
      have hfold : List.foldr max 0 (a :: b :: u) = max a (List.foldr max 0 (b :: u)) := rfl
      rw [hfold]
      rcases le_total (List.foldr max 0 (b :: u)) a with h1 | h1
      · rw [max_eq_left h1]
        exact List.mem_cons_self _ _
      · rw [max_eq_right h1]
        exact List.mem_cons_of_mem a (ih (List.cons_ne_nil b u))

/-- Where the ranking comparator skips over an element, that element has a
strictly larger completion rate. -/
theorem filter_orderedInsert_rate (q : ℚ) (x : HabitCompletionEntry) :
    ∀ (l : List HabitCompletionEntry),
      (List.orderedInsert rateGe x l).filter (rateEq q) =
        if x.completion_rate = q then x :: l.filter (rateEq q) else l.filter (rateEq q) := by
  intro l
  induction l with
  | nil =>
    by_cases px : x.completion_rate = q
    · simp [List.orderedInsert, List.filter, rateEq, px]
    · simp [List.orderedInsert, List.filter, rateEq, px]
  | cons y t ih =>
    by_cases hr : rateGe x y
    · rw [List.orderedInsert_of_le rateGe t hr]
      by_cases px : x.completion_rate = q
      · simp [List.filter_cons, rateEq, px]
      · simp [List.filter_cons, rateEq, px]
    · have hstep : List.orderedInsert rateGe x (y :: t) =
          y :: List.orderedInsert rateGe x t := by
        simp only [List.orderedInsert, if_neg hr]
      rw [hstep]
      have hxy : x.completion_rate < y.completion_rate := by
        unfold rateGe at hr
        exact lt_of_not_le hr
      by_cases px : x.completion_rate = q
      · have hy : ¬ (y.completion_rate = q) := by
          intro hcon
          rw [hcon, ← px] at hxy
          exact absurd hxy (lt_irrefl _)
        rw [List.filter_cons_of_neg (by simp [rateEq, hy]), ih, if_pos px, if_pos px,
          List.filter_cons_of_neg (by simp [rateEq, hy])]
      · by_cases hy : y.completion_rate = q
        · rw [List.filter_cons_of_pos (by simp [rateEq, hy]), ih, if_neg px, if_neg px,
            List.filter_cons_of_pos (by simp [rateEq, hy])]
        · rw [List.filter_cons_of_neg (by simp [rateEq, hy]), ih, if_neg px, if_neg px,
            List.filter_cons_of_neg (by simp [rateEq, hy])]

/-- The ranking sort is stable: it keeps the relative order of entries with
equal completion rate (the filtered sublist at each rate is unchanged). -/
theorem filter_insertionSort_rate (q : ℚ) :
    ∀ (l : List HabitCompletionEntry),
      (List.insertionSort rateGe l).filter (rateEq q) = l.filter (rateEq q) := by
  intro l
  induction l with
  | nil => rfl
  | cons x t ih =>
    have h1 : List.insertionSort rateGe (x :: t) =
        List.orderedInsert rateGe x (List.insertionSort rateGe t) := rfl
    rw [h1, filter_orderedInsert_rate, ih]
    by_cases px : x.completion_rate = q
    · rw [if_pos px, List.filter_cons_of_pos (by simp [rateEq, px])]
    · rw [if_neg px, List.filter_cons_of_neg (by simp [rateEq, px])]

/-- C8 counterexample: the claim says the overall completion rate equals
the arithmetic mean of the per-habit rates.  The code rounds the mean to
two decimals: with rates 0.33 and 0.34 it returns 0.34, not the mean
0.335. -/
theorem C8_counterexample_overall_rate_rounded :
    ¬ ((aggregateUserStats [⟨1, "a", 33/100, 0⟩, ⟨2, "b", 34/100, 0⟩] 2 0).overall_completion_rate =
      ((33/100 : ℚ) + 34/100) / 2) := by
  rw [aggregateUserStats_overall]
  norm_num [round2, round_eq, List.sum_cons]

/-- C8 (amended): the aggregation returns the arithmetic mean of the
per-habit completion rates rounded to two decimals (0 for an empty list);
`currentStreak` and `bestStreak` both equal the maximum of the habits'
current streaks; `averageStreak` is the mean current streak rounded to two
decimals; and the ranking is the stable descending sort of the habits by
completion rate. -/
theorem C8_user_stats_aggregation :
    ∀ (rows : List HabitCompletionEntry) (nh tot : Nat),
      (aggregateUserStats rows nh tot).overall_completion_rate =
        round2 (if rows.length > 0 then
          (rows.map (·.completion_rate)).sum / (rows.length : ℚ) else 0) ∧
      (aggregateUserStats rows nh tot).best_streak =
        (aggregateUserStats rows nh tot).current_streak ∧
      (∀ r ∈ rows, r.current_streak ≤ (aggregateUserStats rows nh tot).current_streak) ∧
      (rows = [] → (aggregateUserStats rows nh tot).current_streak = 0) ∧
      (rows ≠ [] → ∃ r ∈ rows, (aggregateUserStats rows nh tot).current_streak =
        r.current_streak) ∧
      (aggregateUserStats rows nh tot).average_streak =
        round2 (if rows.length > 0 then
          (((rows.map (·.current_streak) : List Nat).sum : ℚ)) / (rows.length : ℚ) else 0) ∧
      List.Sorted rateGe ((aggregateUserStats rows nh tot).habits_by_completion) ∧
      List.Perm ((aggregateUserStats rows nh tot).habits_by_completion) rows ∧
      (∀ q : ℚ, ((aggregateUserStats rows nh tot).habits_by_completion).filter (rateEq q) =
        rows.filter (rateEq q)) := by
  intro rows nh tot
  refine ⟨aggregateUserStats_overall rows nh tot, rfl, ?_, ?_, ?_,
    aggregateUserStats_average rows nh tot, ?_, ?_, ?_⟩
  · intro r hr
    rw [aggregateUserStats_current]
    exact foldr_max_le_of_mem _ _ (List.mem_map.mpr ⟨r, hr, rfl⟩)
  · intro h0
    subst h0
    rfl
  · intro hne
    rw [aggregateUserStats_current]
    have hmne : rows.map (·.current_streak) ≠ [] := by
      simpa using hne
    obtain ⟨r, hr, hval⟩ := List.mem_map.mp (foldr_max_mem _ hmne)
    exact ⟨r, hr, hval.symm⟩
  · exact List.sorted_insertionSort rateGe rows
  · exact List.perm_insertionSort rateGe rows
  · intro q
    exact filter_insertionSort_rate q rows

/-- C8 witness: the aggregation theorem applied to a concrete two-habit
list, with the nonempty-list hypotheses discharged. -/
theorem C8_user_stats_aggregation_witness :
    (∃ r ∈ ([⟨1, "a", 1/2, 3⟩, ⟨2, "b", 1/4, 5⟩] : List HabitCompletionEntry),
      (aggregateUserStats [⟨1, "a", 1/2, 3⟩, ⟨2, "b", 1/4, 5⟩] 2 0).current_streak =
        r.current_streak) ∧
    List.Perm ((aggregateUserStats [⟨1, "a", 1/2, 3⟩, ⟨2, "b", 1/4, 5⟩] 2 0).habits_by_completion)
      [⟨1, "a", 1/2, 3⟩, ⟨2, "b", 1/4, 5⟩] :=
  ⟨(C8_user_stats_aggregation [⟨1, "a", 1/2, 3⟩, ⟨2, "b", 1/4, 5⟩] 2 0).2.2.2.2.1 (by simp),
    (C8_user_stats_aggregation [⟨1, "a", 1/2, 3⟩, ⟨2, "b", 1/4, 5⟩] 2 0).2.2.2.2.2.2.2.1⟩

example : calculateStreaks [⟨3, false⟩, ⟨2, true⟩, ⟨1, true⟩] = ⟨2, 2, some 2⟩ := by decide

example : (getHabitStatsCore [⟨3, false⟩, ⟨2, true⟩, ⟨1, true⟩]).current_streak = 0 ∧
    (getHabitStatsCore [⟨3, false⟩, ⟨2, true⟩, ⟨1, true⟩]).longest_streak = 2 ∧
    (getHabitStatsCore [⟨3, false⟩, ⟨2, true⟩, ⟨1, true⟩]).last_completed = some 2 := by
  refine ⟨by decide, by decide, by decide⟩

example : calculateStreaks [⟨3, true⟩, ⟨2, false⟩, ⟨1, true⟩] = ⟨2, 1, some 3⟩ := by decide

example : calculateConsistencyScore [⟨0, false⟩] "weekly" (some [1]) = JsNum.nan := by decide
